import Mathlib

/-!
Verification of the hierarchy/graph information-propagation engine
(`src/hier2hier/models/hierarchyPropagator.py`, class `HierarchyPropagator`,
method `forward`, lines 79-185).

The embedding models feature tensors as lists of rows of rationals
(`Mat`), integer selector arrays as `List ℕ`, and the trainable layers
(the two `nn.Linear` transforms, the two `torch.nn.GRUCell` merge cells
and the `nn.BatchNorm1d` normalization) as abstract functions held in the
`HierarchyPropagator` structure, exactly as the spec treats them: only
their data-flow contract matters, never their weights.  Dropout is
modelled by its probability together with an explicit Bernoulli mask
stream, so that statements about randomness (determinism, "applied
exactly once") become statements about mask-independence.  Fallible
tensor operations (row gather with an out-of-range index, the in-loop
`assert`, broadcasting failures of `/`, and the GRU-cell batch-size
check) return `Except PropError`.
-/

/-- A feature vector: one row of the propagated-info tensor. -/
abbrev Vec : Type := List ℚ

/-- A feature tensor: one row per XML node, in NDFO order. -/
abbrev Mat : Type := List Vec

/-- Runtime failures of `forward`, mirroring the Python/torch exceptions:
`typeNotCallable` is the `TypeError` from calling the default
`dataDebugHook=None`; `indexOutOfRange` the `IndexError` of a gather with
a rank `≥` the row count; `assertFailed` the `assert` at line 145;
`broadcastMismatch` the `RuntimeError` of a non-broadcastable division at
line 157; `batchSizeMismatch` the `RuntimeError` of a `GRUCell` applied
to input and hidden state of different batch sizes. -/
inductive PropError : Type
  | typeNotCallable
  | indexOutOfRange
  | assertFailed
  | broadcastMismatch
  | batchSizeMismatch

deriving instance DecidableEq for PropError

/-- State of the propagator (constructor arguments and the trainable
sub-modules of `HierarchyPropagator.__init__`, lines 28-56).  The four
merge functions act on one row; torch applies them row-wise over the
batch dimension.  Batch normalization couples rows, so it is a function
of the whole tensor. -/
structure HierarchyPropagator : Type where
  propagated_info_len : ℕ
  node_info_propagator_stack_depth : ℕ
  disable_batch_norm : Bool
  input_dropout_p : ℚ
  dropout_p : ℚ
  batchNormPropagatedInfo : Mat → Mat
  transformParentInfo : Vec → Vec
  overlayParentInfo : Vec → Vec → Vec
  transformChildrenInfo : Vec → Vec
  overlayChildrenInfo : Vec → Vec → Vec

/-- Row gather `tensor[selector, ...]` (lines 127 and 136): selects the
row at each selector entry; an entry `≥` the row count raises
`IndexError`. -/
def gatherRows (m : Mat) : List ℕ → Except PropError Mat
  | [] => .ok []
  | i :: rest =>
    if h : i < m.length then
      match gatherRows m rest with
      | .ok rows => .ok (m[i] :: rows)
      | .error e => .error e
    else .error .indexOutOfRange

/-- A `torch.nn.GRUCell` applied to a batch (lines 153 and 170): the cell
function is applied row-wise to (input, hidden state); torch rejects
mismatched batch sizes. -/
def gruCellApply (cell : Vec → Vec → Vec) (input state : Mat) : Except PropError Mat :=
  if input.length = state.length then .ok (List.zipWith cell input state)
  else .error .batchSizeMismatch

/-- `nn.ZeroPad2d((0, 0, 0, deficit))` (line 149): append `k` zero rows
below, of the tensor's own width. -/
def padRows (m : Mat) (k : ℕ) : Mat :=
  m ++ List.replicate k (List.replicate (m.headD []).length 0)

/-- Elementwise tensor addition (line 150). -/
def matAdd (a b : Mat) : Mat :=
  List.zipWith (fun r s => List.zipWith (fun q q' => q + q') r s) a b

/-- The children-info accumulation loop (lines 134-150).  The running
accumulator starts as the empty tensor; each child-selector array in turn
is gathered and transformed; an empty accumulator is seeded with the
current rank, otherwise the `assert` at line 145 requires the current
rank to be at least as long as the accumulator, which is zero-padded up
to the current length and summed. -/
def accumChildrenInfo (tc : Vec → Vec) (x : Mat) : List (List ℕ) → Mat → Except PropError Mat
  | [], acc => .ok acc
  | sel :: rest, acc =>
    match gatherRows x sel with
    | .error e => .error e
    | .ok cur0 =>
      let cur := cur0.map tc
      if acc.length = 0 then
        accumChildrenInfo tc x rest cur
      else if cur.length < acc.length then .error .assertFailed
      else
        accumChildrenInfo tc x rest
          (matAdd (if acc.length < cur.length then padRows acc (cur.length - acc.length) else acc) cur)

/-- The normalization `children / decreasingFanoutsFactor.unsqueeze(-1)`
(lines 122 and 157), with torch's broadcasting over the row dimension:
shapes `(L, W)` and `(N, 1)` are compatible iff `L = N`, `L = 1` or
`N = 1`, and the result has `max L N` rows. -/
def divByFanout (m : Mat) (d : List ℚ) : Except PropError Mat :=
  if m.length = d.length then
    .ok (List.zipWith (fun row f => row.map (fun q => q / f)) m d)
  else if m.length = 1 then
    .ok (d.map (fun f => (m.headD []).map (fun q => q / f)))
  else if d.length = 1 then
    .ok (m.map (fun row => row.map (fun q => q / d.headD 0)))
  else .error .broadcastMismatch

/-- Map a function over a vector together with the element index. -/
def mapIdxVec (f : ℕ → ℚ → ℚ) : ℕ → Vec → Vec
  | _, [] => []
  | j, q :: rest => f j q :: mapIdxVec f (j + 1) rest

/-- Map a function over a matrix together with row and column indices. -/
def mapIdxMat (f : ℕ → ℕ → ℚ → ℚ) : ℕ → Mat → Mat
  | _, [] => []
  | i, row :: rest => mapIdxVec (f i) 0 row :: mapIdxMat f (i + 1) rest

/-- `nn.Dropout(p)` in training mode (lines 41, 56, 115, 183): with
`p = 0` the identity (the Bernoulli keep-mask is almost surely all-ones
and the scale is `1`); otherwise each entry is kept and scaled by
`1/(1-p)` where the sampled mask is true, and zeroed elsewhere. -/
def dropoutApply (prob : ℚ) (mask : ℕ → ℕ → Bool) (m : Mat) : Mat :=
  if prob = 0 then m
  else mapIdxMat (fun i j q => if mask i j then q / (1 - prob) else 0) 0 m

/-- One iteration of the propagation loop (lines 126-183): gather and
transform parent info; accumulate children info; merge parent info into
every row through the parent GRU cell; normalize the accumulated
children info by the fanout factor; split at `deficitStart` (the row
count of the normalized children info), merge children info into the
leading rows through the children GRU cell, re-attach the remaining rows
unchanged; apply output dropout. -/
def propagationRound (p : HierarchyPropagator) (mask : ℕ → ℕ → Bool)
    (parentSelectorByNdfo : List ℕ) (childSelectorByNdfoList : List (List ℕ))
    (decreasingFanoutsFactor : List ℚ) (x : Mat) : Except PropError Mat :=
  match gatherRows x parentSelectorByNdfo with
  | .error e => .error e
  | .ok parentInfo0 =>
    let parentInfo := parentInfo0.map p.transformParentInfo
    match accumChildrenInfo p.transformChildrenInfo x childSelectorByNdfoList [] with
    | .error e => .error e
    | .ok children0 =>
      match gruCellApply p.overlayParentInfo parentInfo x with
      | .error e => .error e
      | .ok parentMerged =>
        match (if children0.length ≠ 0 then divByFanout children0 decreasingFanoutsFactor
               else .ok children0) with
        | .error e => .error e
        | .ok childrenInfo =>
          let deficitStart := childrenInfo.length
          let tailRows := parentMerged.drop deficitStart
          let headRows := parentMerged.take deficitStart
          match (if childrenInfo.length ≠ 0 then
                   gruCellApply p.overlayChildrenInfo childrenInfo headRows
                 else .ok headRows) with
          | .error e => .error e
          | .ok merged => .ok (dropoutApply p.dropout_p mask (merged ++ tailRows))

/-- The propagation loop `for i in range(stack_depth)` (line 125): `i` is
the round index (selecting the round's dropout mask), the second `ℕ` the
number of rounds still to run. -/
def propagateRounds (p : HierarchyPropagator) (ps : List ℕ) (cs : List (List ℕ))
    (fan : List ℚ) (om : ℕ → ℕ → ℕ → Bool) : ℕ → ℕ → Mat → Except PropError Mat
  | _, 0, x => .ok x
  | i, n + 1, x =>
    match propagationRound p (om i) ps cs fan x with
    | .error e => .error e
    | .ok y => propagateRounds p ps cs fan om (i + 1) n y

/-- `HierarchyPropagator.forward` (lines 79-185).  The debug hook is
invoked unconditionally on entry, so the default `None` fails
immediately; then input dropout, then one batch-normalization pass when
enabled and the batch has more than one row, then
`node_info_propagator_stack_depth` propagation rounds.  `inputMask` is
the Bernoulli mask sampled by the input dropout and `outputMask i` the
one sampled by the output dropout of round `i`. -/
def HierarchyPropagator.forward (p : HierarchyPropagator) (x : Mat)
    (parentSelectorByNdfo : List ℕ) (childSelectorByNdfoList : List (List ℕ))
    (decreasingFanoutsFactor : List ℚ) (dataDebugHook : Option (Mat → Unit))
    (inputMask : ℕ → ℕ → Bool) (outputMask : ℕ → ℕ → ℕ → Bool) : Except PropError Mat :=
  match dataDebugHook with
  | none => .error .typeNotCallable
  | some h =>
    let _ := h x
    let x1 := dropoutApply p.input_dropout_p inputMask x
    let x2 := if p.disable_batch_norm = false ∧ 1 < x1.length then p.batchNormPropagatedInfo x1
              else x1
    let _ := h x2
    propagateRounds p parentSelectorByNdfo childSelectorByNdfoList decreasingFanoutsFactor
      outputMask 0 p.node_info_propagator_stack_depth x2

/-- The parent sub-step of one round (lines 127, 131 and 153): gather
each node's parent row, transform it, and merge it into every node's row
through the parent GRU cell. -/
def parentOverlayStep (p : HierarchyPropagator) (ps : List ℕ) (x : Mat) :
    Except PropError Mat :=
  match gatherRows x ps with
  | .error e => .error e
  | .ok g => gruCellApply p.overlayParentInfo (g.map p.transformParentInfo) x

/-- The largest length among the child-selector arrays: the row count the
children-info accumulator reaches. -/
def maxSelLen : List (List ℕ) → ℕ
  | [] => 0
  | sel :: rest => max sel.length (maxSelLen rest)

/-! ### Concrete instances used for evaluations -/

/-- Row-wise vector addition: a simple width-preserving instantiation of
an abstract merge cell, used for concrete evaluations. -/
def zipAdd (a b : Vec) : Vec := List.zipWith (fun q q' => q + q') a b

/-- A concrete propagator instance: feature width 1, one round, batch
normalization disabled, both dropouts disabled, identity transforms and
additive merge cells. -/
def hpAdd : HierarchyPropagator :=
  { propagated_info_len := 1
    node_info_propagator_stack_depth := 1
    disable_batch_norm := true
    input_dropout_p := 0
    dropout_p := 0
    batchNormPropagatedInfo := fun m => m
    transformParentInfo := fun v => v
    overlayParentInfo := zipAdd
    transformChildrenInfo := fun v => v
    overlayChildrenInfo := zipAdd }

/-- The trivial debug hook. -/
def hkUnit : Mat → Unit := fun _ => ()

/-- An all-keep dropout mask. -/
def maskKeep : ℕ → ℕ → Bool := fun _ _ => true

/-- An all-drop dropout mask. -/
def maskDrop : ℕ → ℕ → Bool := fun _ _ => false

/-- All-keep masks for every round. -/
def roundMaskKeep : ℕ → ℕ → ℕ → Bool := fun _ _ _ => true

/-- All-drop masks for every round. -/
def roundMaskDrop : ℕ → ℕ → ℕ → Bool := fun _ _ _ => false

/-- A batch-normalization instantiation that shifts every entry by one,
standing in for a non-identity `nn.BatchNorm1d` in training mode. -/
def bnShift : Mat → Mat := fun m => m.map (fun row => row.map (fun q => q + 1))

/-! ### Helper lemmas about the tensor primitives -/

/-- Membership in a `zipWith` comes from members of both lists. -/
theorem memZipWith {α β γ : Type} {f : α → β → γ} :
    ∀ {l₁ : List α} {l₂ : List β} {c : γ}, c ∈ List.zipWith f l₁ l₂ →
      ∃ a ∈ l₁, ∃ b ∈ l₂, c = f a b := by
  intro l₁
  induction l₁ with
  | nil => intro l₂ c h; simp [List.zipWith] at h
  | cons a r ih =>
    intro l₂ c h
    cases l₂ with
    | nil => simp [List.zipWith] at h
    | cons b s =>
      rcases List.mem_cons.mp h with h1 | h2
      · exact ⟨a, List.mem_cons_self a r, b, List.mem_cons_self b s, h1⟩
      · obtain ⟨a', ha', b', hb', hc⟩ := ih h2
        exact ⟨a', List.mem_cons_of_mem _ ha', b', List.mem_cons_of_mem _ hb', hc⟩

/-- A gather with every selector entry in range succeeds and returns the
selected rows. -/
theorem gatherRows_ok_of_valid (m : Mat) (sel : List ℕ) (hv : ∀ i ∈ sel, i < m.length) :
    gatherRows m sel = .ok (sel.map (fun i => m.getD i [])) := by
  induction sel with
  | nil => rfl
  | cons i rest ih =>
    have hi : i < m.length := hv i (List.mem_cons_self _ _)
    have hrest := ih (fun j hj => hv j (List.mem_cons_of_mem _ hj))
    simp only [gatherRows, dif_pos hi, hrest, List.map_cons]
    rw [List.getD_eq_getElem m [] hi]

/-- A gather with some selector entry out of range raises `IndexError`. -/
theorem gatherRows_err_of_invalid (m : Mat) (sel : List ℕ)
    (hv : ∃ i ∈ sel, m.length ≤ i) :
    gatherRows m sel = .error .indexOutOfRange := by
  induction sel with
  | nil => simp at hv
  | cons i rest ih =>
    obtain ⟨j, hj, hge⟩ := hv
    rcases List.mem_cons.mp hj with rfl | hmem
    · have : ¬ j < m.length := Nat.not_lt.mpr hge
      simp only [gatherRows, dif_neg this]
    · by_cases hi : i < m.length
      · simp only [gatherRows, dif_pos hi, ih ⟨j, hmem, hge⟩]
      · simp only [gatherRows, dif_neg hi]

/-- A successful gather returns one row per selector entry. -/
theorem gatherRows_ok_length (m : Mat) :
    ∀ (sel : List ℕ) (r : Mat), gatherRows m sel = .ok r → r.length = sel.length := by
  intro sel
  induction sel with
  | nil => intro r h; cases h; rfl
  | cons i rest ih =>
    intro r h
    by_cases hi : i < m.length
    · simp only [gatherRows, dif_pos hi] at h
      cases hg : gatherRows m rest with
      | ok rows => rw [hg] at h; cases h; simp [ih rows hg]
      | error e => rw [hg] at h; cases h
    · simp only [gatherRows, dif_neg hi] at h; cases h

/-- Every row returned by a successful gather is a row of the source. -/
theorem gatherRows_ok_mem (m : Mat) :
    ∀ (sel : List ℕ) (r : Mat), gatherRows m sel = .ok r → ∀ v ∈ r, v ∈ m := by
  intro sel
  induction sel with
  | nil => intro r h; cases h; intro v hv; simp at hv
  | cons i rest ih =>
    intro r h
    by_cases hi : i < m.length
    · simp only [gatherRows, dif_pos hi] at h
      cases hg : gatherRows m rest with
      | ok rows =>
        rw [hg] at h; cases h
        intro v hv
        rcases List.mem_cons.mp hv with rfl | hv'
        · exact List.getElem_mem hi
        · exact ih rows hg v hv'
      | error e => rw [hg] at h; cases h
    · simp only [gatherRows, dif_neg hi] at h; cases h

/-- `padRows` adds exactly `k` rows. -/
theorem padRows_length (m : Mat) (k : ℕ) : (padRows m k).length = m.length + k := by
  simp [padRows]

/-- Padding a nonempty matrix of uniform width keeps the width uniform. -/
theorem padRows_widths {m : Mat} {W k : ℕ} (hne : m ≠ [])
    (hm : ∀ u ∈ m, u.length = W) : ∀ v ∈ padRows m k, v.length = W := by
  intro v hv
  rcases List.mem_append.mp hv with h | h
  · exact hm v h
  · have hz := List.eq_of_mem_replicate h
    subst hz
    cases m with
    | nil => exact absurd rfl hne
    | cons u r =>
      simp only [List.headD_cons, List.length_replicate]
      exact hm u (List.mem_cons_self u r)

/-- `matAdd` produces the shorter of the two row counts. -/
theorem matAdd_length (a b : Mat) : (matAdd a b).length = min a.length b.length := by
  simp [matAdd]

/-- Rows of a sum of uniform-width matrices keep the width. -/
theorem matAdd_widths {a b : Mat} {W : ℕ} (ha : ∀ u ∈ a, u.length = W)
    (hb : ∀ u ∈ b, u.length = W) : ∀ v ∈ matAdd a b, v.length = W := by
  intro v hv
  obtain ⟨r, hr, s, hs, rfl⟩ := memZipWith hv
  simp [List.length_zipWith, ha r hr, hb s hs]

/-- The GRU cell on equal batch sizes is the row-wise cell application. -/
theorem gruCellApply_ok {cell : Vec → Vec → Vec} {input state : Mat}
    (h : input.length = state.length) :
    gruCellApply cell input state = .ok (List.zipWith cell input state) := by
  simp [gruCellApply, h]

/-- A successful GRU cell application forces equal batch sizes and is the
row-wise cell application. -/
theorem gruCellApply_ok_elim {cell : Vec → Vec → Vec} {input state r : Mat}
    (h : gruCellApply cell input state = .ok r) :
    input.length = state.length ∧ r = List.zipWith cell input state := by
  by_cases hl : input.length = state.length
  · rw [gruCellApply_ok hl] at h; cases h; exact ⟨hl, rfl⟩
  · simp [gruCellApply, hl] at h

/-- Indexed vector map preserves length. -/
theorem mapIdxVec_length (f : ℕ → ℚ → ℚ) : ∀ (j : ℕ) (v : Vec),
    (mapIdxVec f j v).length = v.length := by
  intro j v
  induction v generalizing j with
  | nil => rfl
  | cons q rest ih => simp [mapIdxVec, ih]

/-- Indexed matrix map preserves the row count. -/
theorem mapIdxMat_length (f : ℕ → ℕ → ℚ → ℚ) : ∀ (i : ℕ) (m : Mat),
    (mapIdxMat f i m).length = m.length := by
  intro i m
  induction m generalizing i with
  | nil => rfl
  | cons row rest ih => simp [mapIdxMat, ih]

/-- Indexed matrix map preserves uniform row widths. -/
theorem mapIdxMat_widths {f : ℕ → ℕ → ℚ → ℚ} {W : ℕ} :
    ∀ {i : ℕ} {m : Mat}, (∀ u ∈ m, u.length = W) →
      ∀ v ∈ mapIdxMat f i m, v.length = W := by
  intro i m
  induction m generalizing i with
  | nil => intro _ v hv; simp [mapIdxMat] at hv
  | cons row rest ih =>
    intro hm v hv
    rcases List.mem_cons.mp hv with rfl | hv'
    · rw [mapIdxVec_length]; exact hm row (List.mem_cons_self _ _)
    · exact ih (fun u hu => hm u (List.mem_cons_of_mem _ hu)) v hv'

/-- Dropout with probability `0` is the identity. -/
theorem dropoutApply_zero (mask : ℕ → ℕ → Bool) (m : Mat) :
    dropoutApply 0 mask m = m := by
  simp [dropoutApply]

/-- Dropout preserves the row count. -/
theorem dropoutApply_length (prob : ℚ) (mask : ℕ → ℕ → Bool) (m : Mat) :
    (dropoutApply prob mask m).length = m.length := by
  unfold dropoutApply
  split
  · rfl
  · exact mapIdxMat_length _ 0 m

/-- Dropout preserves uniform row widths. -/
theorem dropoutApply_widths {prob : ℚ} {mask : ℕ → ℕ → Bool} {m : Mat} {W : ℕ}
    (hm : ∀ u ∈ m, u.length = W) : ∀ v ∈ dropoutApply prob mask m, v.length = W := by
  unfold dropoutApply
  split
  · exact hm
  · exact mapIdxMat_widths hm

/-- `maxSelLen` of a prefix never exceeds `maxSelLen` of the whole list. -/
theorem maxSelLen_take_le : ∀ (cs : List (List ℕ)) (k : ℕ),
    maxSelLen (cs.take k) ≤ maxSelLen cs := by
  intro cs
  induction cs with
  | nil => intro k; simp [maxSelLen]
  | cons sel rest ih =>
    intro k
    cases k with
    | zero => simp [maxSelLen]
    | succ k' =>
      simp only [List.take_succ_cons, maxSelLen]
      have := ih k'
      omega

/-- Prefixes of the selector list have monotonically growing `maxSelLen`. -/
theorem maxSelLen_take_mono (cs : List (List ℕ)) {k₁ k₂ : ℕ} (h : k₁ ≤ k₂) :
    maxSelLen (cs.take k₁) ≤ maxSelLen (cs.take k₂) := by
  have : cs.take k₁ = (cs.take k₂).take k₁ := by
    rw [List.take_take, Nat.min_eq_left h]
  rw [this]
  exact maxSelLen_take_le (cs.take k₂) k₁

/-- When the selector lengths are non-decreasing in the order the loop
processes them (and never shorter than the current accumulator), the
children-info accumulation succeeds, and the accumulator ends with the
largest selector length (or its initial length if that is larger). -/
theorem accumChildrenInfo_ok (tc : Vec → Vec) (x : Mat) :
    ∀ (cs : List (List ℕ)) (acc : Mat),
      (∀ sel ∈ cs, ∀ i ∈ sel, i < x.length) →
      List.Chain' (· ≤ ·) (acc.length :: cs.map List.length) →
      ∃ r, accumChildrenInfo tc x cs acc = .ok r ∧
        r.length = max acc.length (maxSelLen cs) := by
  intro cs
  induction cs with
  | nil =>
    intro acc _ _
    exact ⟨acc, rfl, by simp [maxSelLen]⟩
  | cons sel rest ih =>
    intro acc hv hch
    have hgather := gatherRows_ok_of_valid x sel (hv sel (List.mem_cons_self _ _))
    have hv' : ∀ s ∈ rest, ∀ i ∈ s, i < x.length :=
      fun s hs => hv s (List.mem_cons_of_mem _ hs)
    rw [List.map_cons, List.chain'_cons] at hch
    obtain ⟨hle, hch'⟩ := hch
    have hcur : ((sel.map (fun i => x.getD i [])).map tc).length = sel.length := by simp
    by_cases hacc : acc.length = 0
    · obtain ⟨r, hr, hrlen⟩ := ih ((sel.map (fun i => x.getD i [])).map tc) hv'
        (by rw [hcur]; exact hch')
      refine ⟨r, ?_, ?_⟩
      · simp only [accumChildrenInfo, hgather, hacc, if_pos rfl]
        exact hr
      · rw [hrlen, hcur, hacc, maxSelLen]
        omega
    · have hlt : ¬ ((sel.map (fun i => x.getD i [])).map tc).length < acc.length := by
        rw [hcur]; omega
      set acc2 := (if acc.length < ((sel.map (fun i => x.getD i [])).map tc).length then
          padRows acc (((sel.map (fun i => x.getD i [])).map tc).length - acc.length)
        else acc) with hacc2
      have hacc2len : acc2.length = sel.length := by
        rw [hacc2]
        split
        · rw [padRows_length, hcur]; omega
        · rw [hcur] at *; omega
      have hsum : (matAdd acc2 ((sel.map (fun i => x.getD i [])).map tc)).length
          = sel.length := by
        rw [matAdd_length, hacc2len, hcur]; omega
      obtain ⟨r, hr, hrlen⟩ := ih
        (matAdd acc2 ((sel.map (fun i => x.getD i [])).map tc)) hv'
        (by rw [hsum]; exact hch')
      refine ⟨r, ?_, ?_⟩
      · simp only [accumChildrenInfo, hgather, if_neg hacc, if_neg hlt]
        exact hr
      · rw [hrlen, hsum, maxSelLen]
        omega

/-- The children-info accumulation keeps rows at the uniform feature
width: every row it produces is a transformed gathered row, a zero pad of
the accumulator's own width, or a sum of such rows. -/
theorem accumChildrenInfo_widths {tc : Vec → Vec} {x : Mat} {W : ℕ}
    (htc : ∀ v : Vec, v.length = W → (tc v).length = W)
    (hx : ∀ v ∈ x, v.length = W) :
    ∀ (cs : List (List ℕ)) (acc r : Mat),
      accumChildrenInfo tc x cs acc = .ok r →
      (∀ v ∈ acc, v.length = W) → ∀ v ∈ r, v.length = W := by
  intro cs
  induction cs with
  | nil => intro acc r h hacc; cases h; exact hacc
  | cons sel rest ih =>
    intro acc r h hacc
    unfold accumChildrenInfo at h
    cases hg : gatherRows x sel with
    | error e => rw [hg] at h; cases h
    | ok cur0 =>
      rw [hg] at h
      dsimp only at h
      have hcur : ∀ v ∈ cur0.map tc, v.length = W := by
        intro v hv
        obtain ⟨u, hu, rfl⟩ := List.mem_map.mp hv
        exact htc u (hx u (gatherRows_ok_mem x sel cur0 hg u hu))
      by_cases h0 : acc.length = 0
      · rw [if_pos h0] at h
        exact ih _ r h hcur
      · rw [if_neg h0] at h
        by_cases hlt : (cur0.map tc).length < acc.length
        · rw [if_pos hlt] at h; cases h
        · rw [if_neg hlt] at h
          refine ih _ r h (matAdd_widths ?_ hcur)
          split
          · refine padRows_widths ?_ hacc
            intro hnil
            exact h0 (by rw [hnil]; rfl)
          · exact hacc

/-- If some child-selector entry is out of range, the accumulation fails
(with an index error, or an assertion error raised first). -/
theorem accumChildrenInfo_err_of_invalid (tc : Vec → Vec) (x : Mat) :
    ∀ (cs : List (List ℕ)) (acc : Mat),
      (∃ sel ∈ cs, ∃ i ∈ sel, x.length ≤ i) →
      ∃ e, accumChildrenInfo tc x cs acc = .error e := by
  intro cs
  induction cs with
  | nil => intro acc h; simp at h
  | cons sel rest ih =>
    intro acc h
    obtain ⟨s, hs, j, hj, hge⟩ := h
    rcases List.mem_cons.mp hs with rfl | hmem
    · refine ⟨.indexOutOfRange, ?_⟩
      unfold accumChildrenInfo
      rw [gatherRows_err_of_invalid x s ⟨j, hj, hge⟩]
    · cases hg : gatherRows x sel with
      | error e =>
        refine ⟨e, ?_⟩
        unfold accumChildrenInfo
        rw [hg]
      | ok cur0 =>
        by_cases h0 : acc.length = 0
        · obtain ⟨e, he⟩ := ih (cur0.map tc) ⟨s, hmem, j, hj, hge⟩
          refine ⟨e, ?_⟩
          unfold accumChildrenInfo
          rw [hg]
          dsimp only
          rw [if_pos h0]
          exact he
        · by_cases hlt : (cur0.map tc).length < acc.length
          · refine ⟨.assertFailed, ?_⟩
            unfold accumChildrenInfo
            rw [hg]
            dsimp only
            rw [if_neg h0, if_pos hlt]
          · obtain ⟨e, he⟩ := ih _ ⟨s, hmem, j, hj, hge⟩
            refine ⟨e, ?_⟩
            unfold accumChildrenInfo
            rw [hg]
            dsimp only
            rw [if_neg h0, if_neg hlt]
            exact he

/-- The fanout division keeps rows at the uniform feature width. -/
theorem divByFanout_widths {m r : Mat} {d : List ℚ} {W : ℕ}
    (hm : ∀ v ∈ m, v.length = W) (h : divByFanout m d = .ok r) :
    ∀ v ∈ r, v.length = W := by
  unfold divByFanout at h
  split at h
  · cases h
    intro v hv
    obtain ⟨row, hrow, f, _, rfl⟩ := memZipWith hv
    simp [hm row hrow]
  · split at h
    · rename_i hL1
      cases h
      intro v hv
      obtain ⟨f, _, rfl⟩ := List.mem_map.mp hv
      cases m with
      | nil => simp at hL1
      | cons u rest =>
        simp only [List.headD_cons, List.length_map]
        exact hm u (List.mem_cons_self _ _)
    · split at h
      · cases h
        intro v hv
        obtain ⟨row, hrow, rfl⟩ := List.mem_map.mp hv
        simp [hm row hrow]
      · cases h

/-- Whenever one propagation round completes without raising, it returns
exactly one row per input row, all at the uniform feature width (the four
merge functions being width-preserving, as `nn.Linear(W, W)` and
`nn.GRUCell(W, W)` are). -/
theorem propagationRound_ok_shape {p : HierarchyPropagator} {mask : ℕ → ℕ → Bool}
    {ps : List ℕ} {cs : List (List ℕ)} {fan : List ℚ} {x r : Mat} {W : ℕ}
    (htp : ∀ v : Vec, v.length = W → (p.transformParentInfo v).length = W)
    (htc : ∀ v : Vec, v.length = W → (p.transformChildrenInfo v).length = W)
    (hop : ∀ a b : Vec, a.length = W → b.length = W → (p.overlayParentInfo a b).length = W)
    (hoc : ∀ a b : Vec, a.length = W → b.length = W → (p.overlayChildrenInfo a b).length = W)
    (hx : ∀ v ∈ x, v.length = W)
    (h : propagationRound p mask ps cs fan x = .ok r) :
    r.length = x.length ∧ ∀ v ∈ r, v.length = W := by
  unfold propagationRound at h
  cases hg : gatherRows x ps with
  | error e => rw [hg] at h; cases h
  | ok g =>
  rw [hg] at h
  dsimp only at h
  cases ha : accumChildrenInfo p.transformChildrenInfo x cs [] with
  | error e => rw [ha] at h; cases h
  | ok c0 =>
  rw [ha] at h
  dsimp only at h
  cases hpm : gruCellApply p.overlayParentInfo (g.map p.transformParentInfo) x with
  | error e => rw [hpm] at h; cases h
  | ok pm =>
  rw [hpm] at h
  dsimp only at h
  obtain ⟨hglen, hpmz⟩ := gruCellApply_ok_elim hpm
  rw [List.length_map] at hglen
  have hpmlen : pm.length = x.length := by
    rw [hpmz, List.length_zipWith, List.length_map]
    omega
  have hgw : ∀ v ∈ g, v.length = W := fun v hv => hx v (gatherRows_ok_mem x ps g hg v hv)
  have hpmw : ∀ v ∈ pm, v.length = W := by
    rw [hpmz]
    intro v hv
    obtain ⟨a, haa, b, hbb, rfl⟩ := memZipWith hv
    obtain ⟨u, hu, rfl⟩ := List.mem_map.mp haa
    exact hop _ _ (htp u (hgw u hu)) (hx b hbb)
  have hc0w : ∀ v ∈ c0, v.length = W :=
    accumChildrenInfo_widths htc hx cs [] c0 ha (by intro v hv; simp at hv)
  cases hd : (if c0.length ≠ 0 then divByFanout c0 fan else .ok c0) with
  | error e => rw [hd] at h; cases h
  | ok ci =>
  rw [hd] at h
  dsimp only at h
  have hciw : ∀ v ∈ ci, v.length = W := by
    by_cases h0 : c0.length ≠ 0
    · rw [if_pos h0] at hd
      exact divByFanout_widths hc0w hd
    · rw [if_neg h0] at hd
      cases hd
      exact hc0w
  cases hmg : (if ci.length ≠ 0 then
      gruCellApply p.overlayChildrenInfo ci (pm.take ci.length)
    else .ok (pm.take ci.length)) with
  | error e => rw [hmg] at h; cases h
  | ok merged =>
  rw [hmg] at h
  cases h
  by_cases hc : ci.length ≠ 0
  · rw [if_pos hc] at hmg
    obtain ⟨hlen2, hmz⟩ := gruCellApply_ok_elim hmg
    rw [List.length_take] at hlen2
    have hcile : ci.length ≤ pm.length := by omega
    have hmlen : merged.length = ci.length := by
      rw [hmz, List.length_zipWith, List.length_take]
      omega
    constructor
    · rw [dropoutApply_length, List.length_append, List.length_drop, hmlen, hpmlen] at *
      omega
    · refine dropoutApply_widths ?_
      intro v hv
      rcases List.mem_append.mp hv with hv1 | hv2
      · rw [hmz] at hv1
        obtain ⟨a, haa, b, hbb, rfl⟩ := memZipWith hv1
        exact hoc _ _ (hciw a haa) (hpmw b (List.mem_of_mem_take hbb))
      · exact hpmw v (List.mem_of_mem_drop hv2)
  · rw [if_neg hc] at hmg
    cases hmg
    have hci0 : ci.length = 0 := by omega
    constructor
    · rw [dropoutApply_length, List.length_append, List.length_take, List.length_drop,
        hci0, hpmlen]
      omega
    · refine dropoutApply_widths ?_
      intro v hv
      rcases List.mem_append.mp hv with hv1 | hv2
      · exact hpmw v (List.mem_of_mem_take hv1)
      · exact hpmw v (List.mem_of_mem_drop hv2)

/-- Shape preservation extends over any number of rounds. -/
theorem propagateRounds_ok_shape {p : HierarchyPropagator} {ps : List ℕ}
    {cs : List (List ℕ)} {fan : List ℚ} {om : ℕ → ℕ → ℕ → Bool} {W : ℕ}
    (htp : ∀ v : Vec, v.length = W → (p.transformParentInfo v).length = W)
    (htc : ∀ v : Vec, v.length = W → (p.transformChildrenInfo v).length = W)
    (hop : ∀ a b : Vec, a.length = W → b.length = W → (p.overlayParentInfo a b).length = W)
    (hoc : ∀ a b : Vec, a.length = W → b.length = W → (p.overlayChildrenInfo a b).length = W) :
    ∀ (n i : ℕ) (x y : Mat), propagateRounds p ps cs fan om i n x = .ok y →
      (∀ v ∈ x, v.length = W) → y.length = x.length ∧ ∀ v ∈ y, v.length = W := by
  intro n
  induction n with
  | zero => intro i x y h hx; cases h; exact ⟨rfl, hx⟩
  | succ n ih =>
    intro i x y h hx
    unfold propagateRounds at h
    cases hr : propagationRound p (om i) ps cs fan x with
    | error e => rw [hr] at h; cases h
    | ok z =>
      rw [hr] at h
      dsimp only at h
      obtain ⟨hz1, hz2⟩ := propagationRound_ok_shape htp htc hop hoc hx hr
      obtain ⟨hy1, hy2⟩ := ih (i + 1) z y h hz2
      exact ⟨by omega, hy2⟩

/-- Full characterization of one propagation round on well-formed input:
the parent selector covers every row, the child-selector lengths are
non-decreasing in processing order and bounded by the row count, and the
fanout factor has exactly one entry per accumulated children row.  The
round then succeeds; the parent GRU cell is applied to every row; the
children GRU cell is applied to exactly the first `maxSelLen cs` rows,
fed the accumulated children info divided row-wise by the fanout factor;
and the remaining rows pass through the children sub-step unchanged. -/
theorem propagationRound_ok_char {p : HierarchyPropagator} {mask : ℕ → ℕ → Bool}
    {ps : List ℕ} {cs : List (List ℕ)} {fan : List ℚ} {x : Mat}
    (hpslen : ps.length = x.length)
    (hpsv : ∀ i ∈ ps, i < x.length)
    (hcsv : ∀ sel ∈ cs, ∀ i ∈ sel, i < x.length)
    (hch : List.Chain' (· ≤ ·) (cs.map List.length))
    (hL : maxSelLen cs ≤ x.length)
    (hfan : fan.length = maxSelLen cs) :
    ∃ acc pm,
      accumChildrenInfo p.transformChildrenInfo x cs [] = .ok acc ∧
      acc.length = maxSelLen cs ∧
      parentOverlayStep p ps x = .ok pm ∧
      pm = List.zipWith (fun a b => p.overlayParentInfo (p.transformParentInfo a) b)
        (ps.map (fun i => x.getD i [])) x ∧
      propagationRound p mask ps cs fan x = .ok (dropoutApply p.dropout_p mask
        (List.zipWith p.overlayChildrenInfo
          (List.zipWith (fun row f => row.map (fun q => q / f)) acc fan)
          (pm.take (maxSelLen cs)) ++ pm.drop (maxSelLen cs))) := by
  have hch0 : List.Chain' (· ≤ ·) ((([] : Mat)).length :: cs.map List.length) := by
    rw [List.chain'_cons']
    exact ⟨fun y _ => Nat.zero_le y, hch⟩
  obtain ⟨acc, hacc, hacclen⟩ :=
    accumChildrenInfo_ok p.transformChildrenInfo x cs [] hcsv hch0
  rw [List.length_nil, Nat.max_comm, Nat.max_zero] at hacclen
  have hg := gatherRows_ok_of_valid x ps hpsv
  have hglen : (((ps.map fun i => x.getD i [])).map p.transformParentInfo).length
      = x.length := by
    simp [hpslen]
  have hgru := @gruCellApply_ok p.overlayParentInfo _ _ hglen
  set pm := List.zipWith p.overlayParentInfo
    ((ps.map fun i => x.getD i []).map p.transformParentInfo) x with hpmdef
  have hpmlen : pm.length = x.length := by
    rw [hpmdef, List.length_zipWith, hglen]
    exact Nat.min_self _
  have hpmeq : pm = List.zipWith (fun a b => p.overlayParentInfo (p.transformParentInfo a) b)
      (ps.map (fun i => x.getD i [])) x := by
    rw [hpmdef, List.zipWith_map_left]
  have hstep : parentOverlayStep p ps x = .ok pm := by
    unfold parentOverlayStep
    rw [hg]
    exact hgru
  refine ⟨acc, pm, hacc, hacclen, hstep, hpmeq, ?_⟩
  unfold propagationRound
  rw [hg]
  dsimp only
  rw [hacc]
  dsimp only
  rw [hgru]
  dsimp only
  by_cases hL0 : maxSelLen cs = 0
  · have haccnil : acc = [] := List.length_eq_zero.mp (by omega)
    subst haccnil
    rw [if_neg (by simp)]
    dsimp only
    rw [List.length_nil, if_neg (by simp)]
    dsimp only
    rw [hL0]
    simp [List.drop_zero, List.take_zero]
  · rw [if_pos (by omega)]
    have hdiv : divByFanout acc fan =
        .ok (List.zipWith (fun row f => row.map (fun q => q / f)) acc fan) := by
      unfold divByFanout
      rw [if_pos (by omega)]
    rw [hdiv]
    dsimp only
    have hcilen : (List.zipWith (fun row f => row.map (fun q => q / f)) acc fan).length
        = maxSelLen cs := by
      rw [List.length_zipWith]
      omega
    rw [hcilen]
    rw [if_pos hL0]
    have htake : (pm.take (maxSelLen cs)).length = maxSelLen cs := by
      rw [List.length_take]
      omega
    rw [gruCellApply_ok (by rw [hcilen, htake])]

/-- An out-of-range rank in the parent selector or in any child-selector
array makes the round fail (with the index error, or with an assertion
error raised on an earlier selector). -/
theorem propagationRound_err_of_invalid {p : HierarchyPropagator} {mask : ℕ → ℕ → Bool}
    {ps : List ℕ} {cs : List (List ℕ)} {fan : List ℚ} {x : Mat}
    (hbad : (∃ i ∈ ps, x.length ≤ i) ∨ ∃ sel ∈ cs, ∃ i ∈ sel, x.length ≤ i) :
    ∃ e, propagationRound p mask ps cs fan x = .error e := by
  rcases hbad with h1 | h2
  · refine ⟨.indexOutOfRange, ?_⟩
    unfold propagationRound
    rw [gatherRows_err_of_invalid x ps h1]
  · cases hg : gatherRows x ps with
    | error e =>
      refine ⟨e, ?_⟩
      unfold propagationRound
      rw [hg]
    | ok g =>
      obtain ⟨e, he⟩ := accumChildrenInfo_err_of_invalid p.transformChildrenInfo x cs [] h2
      refine ⟨e, ?_⟩
      unfold propagationRound
      rw [hg]
      dsimp only
      rw [he]

/-- With both dropout probabilities zero, a round's result does not
depend on the sampled dropout mask. -/
theorem propagationRound_mask_irrel {p : HierarchyPropagator} (h : p.dropout_p = 0)
    (ma mb : ℕ → ℕ → Bool) (ps : List ℕ) (cs : List (List ℕ)) (fan : List ℚ) (x : Mat) :
    propagationRound p ma ps cs fan x = propagationRound p mb ps cs fan x := by
  unfold propagationRound
  cases hg : gatherRows x ps with
  | error e => rfl
  | ok g =>
    dsimp only
    cases ha : accumChildrenInfo p.transformChildrenInfo x cs [] with
    | error e => rfl
    | ok c0 =>
      dsimp only
      cases hpm : gruCellApply p.overlayParentInfo (g.map p.transformParentInfo) x with
      | error e => rfl
      | ok pm =>
        dsimp only
        cases hd : (if c0.length ≠ 0 then divByFanout c0 fan else .ok c0) with
        | error e => rfl
        | ok ci =>
          dsimp only
          cases hmg : (if ci.length ≠ 0 then
              gruCellApply p.overlayChildrenInfo ci (pm.take ci.length)
            else .ok (pm.take ci.length)) with
          | error e => rfl
          | ok merged =>
            dsimp only
            rw [h, dropoutApply_zero, dropoutApply_zero]

/-- With output dropout disabled, the whole propagation loop does not
depend on the per-round dropout masks, nor on the round counter offset. -/
theorem propagateRounds_mask_irrel {p : HierarchyPropagator} (h : p.dropout_p = 0)
    (ps : List ℕ) (cs : List (List ℕ)) (fan : List ℚ) (oa ob : ℕ → ℕ → ℕ → Bool) :
    ∀ (n i j : ℕ) (x : Mat),
      propagateRounds p ps cs fan oa i n x = propagateRounds p ps cs fan ob j n x := by
  intro n
  induction n with
  | zero => intro i j x; rfl
  | succ n ih =>
    intro i j x
    unfold propagateRounds
    rw [propagationRound_mask_irrel h (oa i) (ob j) ps cs fan x]
    cases hr : propagationRound p (ob j) ps cs fan x with
    | error e => rfl
    | ok y =>
      dsimp only
      exact ih (i + 1) (j + 1) y

/-- The propagation loop never reads the batch-normalization module:
replacing it leaves every round unchanged. -/
theorem propagateRounds_batchNorm_irrel (p : HierarchyPropagator) (g : Mat → Mat)
    (ps : List ℕ) (cs : List (List ℕ)) (fan : List ℚ) (om : ℕ → ℕ → ℕ → Bool) :
    ∀ (n i : ℕ) (x : Mat),
      propagateRounds { p with batchNormPropagatedInfo := g } ps cs fan om i n x
        = propagateRounds p ps cs fan om i n x := by
  intro n
  induction n with
  | zero => intro i x; rfl
  | succ n ih =>
    intro i x
    unfold propagateRounds
    have hround : propagationRound { p with batchNormPropagatedInfo := g } (om i) ps cs fan x
        = propagationRound p (om i) ps cs fan x := rfl
    rw [hround]
    cases hr : propagationRound p (om i) ps cs fan x with
    | error e => rfl
    | ok y =>
      dsimp only
      exact ih (i + 1) y

/-- With at least one propagation round, an out-of-range rank in any
selector aborts `forward` with an error (no partial result is ever
produced: the result is an `error`, not a tensor).  The normalization
module is only assumed to preserve the row count, as `nn.BatchNorm1d`
does, so the failure occurs with normalization enabled or disabled
alike. -/
theorem forward_err_of_invalid {p : HierarchyPropagator} {x : Mat} {ps : List ℕ}
    {cs : List (List ℕ)} {fan : List ℚ} {hk : Mat → Unit}
    {im : ℕ → ℕ → Bool} {om : ℕ → ℕ → ℕ → Bool}
    (hdepth : 1 ≤ p.node_info_propagator_stack_depth)
    (hbn : ∀ m : Mat, (p.batchNormPropagatedInfo m).length = m.length)
    (hbad : (∃ i ∈ ps, x.length ≤ i) ∨ ∃ sel ∈ cs, ∃ i ∈ sel, x.length ≤ i) :
    ∃ e, p.forward x ps cs fan (some hk) im om = .error e := by
  unfold HierarchyPropagator.forward
  dsimp only
  obtain ⟨n, hn⟩ : ∃ n, p.node_info_propagator_stack_depth = n + 1 :=
    ⟨p.node_info_propagator_stack_depth - 1, by omega⟩
  rw [hn]
  set x1 := dropoutApply p.input_dropout_p im x with hx1
  set x2 := (if p.disable_batch_norm = false ∧ 1 < x1.length
    then p.batchNormPropagatedInfo x1 else x1) with hx2
  have hx2len : x2.length = x.length := by
    rw [hx2]
    split
    · rw [hbn, hx1, dropoutApply_length]
    · rw [hx1, dropoutApply_length]
  have hbad' : (∃ i ∈ ps, x2.length ≤ i) ∨ ∃ sel ∈ cs, ∃ i ∈ sel, x2.length ≤ i := by
    rw [hx2len]
    exact hbad
  obtain ⟨e, he⟩ := @propagationRound_err_of_invalid p (om 0) ps cs fan x2 hbad'
  refine ⟨e, ?_⟩
  unfold propagateRounds
  rw [he]

/-- On a single-node batch with a self-loop parent selector and no child
selectors, one round reduces to the parent self-merge alone (followed by
output dropout). -/
theorem propagationRound_single {p : HierarchyPropagator} {mask : ℕ → ℕ → Bool}
    (v : Vec) (fan : List ℚ) :
    propagationRound p mask [0] [] fan [v] = .ok (dropoutApply p.dropout_p mask
      [p.overlayParentInfo (p.transformParentInfo v) v]) := rfl

/-- Iterating the loop on a single-node batch with the self-loop parent
selector, no child selectors and output dropout disabled applies only the
parent self-merge, once per round. -/
theorem propagateRounds_single {p : HierarchyPropagator} {om : ℕ → ℕ → ℕ → Bool}
    (hdp : p.dropout_p = 0) (fan : List ℚ) :
    ∀ (n i : ℕ) (v : Vec),
      propagateRounds p [0] [] fan om i n [v]
        = .ok [(fun u => p.overlayParentInfo (p.transformParentInfo u) u)^[n] v] := by
  intro n
  induction n with
  | zero => intro i v; rfl
  | succ n ih =>
    intro i v
    unfold propagateRounds
    rw [propagationRound_single, hdp, dropoutApply_zero]
    dsimp only
    rw [ih (i + 1)]
    rw [Function.iterate_succ_apply]

/-- Reading past a drop, re-based at the drop point. -/
theorem getD_drop_sub {α : Type} (l : List α) (d : α) (k i : ℕ) (h : k ≤ i) :
    (l.drop k).getD (i - k) d = l.getD i d := by
  rw [List.getD_eq_getElem?_getD, List.getD_eq_getElem?_getD, List.getElem?_drop]
  have hkix : k + (i - k) = i := by omega
  rw [hkix]

/-- Pointwise account of one well-formed propagation round with output
dropout disabled: the parent GRU cell rewrites every row from its
parent's row; the children GRU cell rewrites exactly the first
`maxSelLen cs` rows from the accumulated children info divided row-wise
by the fanout factor; every later row keeps its parent-merged value. -/
theorem propagationRound_pointwise {p : HierarchyPropagator} {mask : ℕ → ℕ → Bool}
    {ps : List ℕ} {cs : List (List ℕ)} {fan : List ℚ} {x : Mat}
    (hdp : p.dropout_p = 0)
    (hpslen : ps.length = x.length)
    (hpsv : ∀ i ∈ ps, i < x.length)
    (hcsv : ∀ sel ∈ cs, ∀ i ∈ sel, i < x.length)
    (hch : List.Chain' (· ≤ ·) (cs.map List.length))
    (hL : maxSelLen cs ≤ x.length)
    (hfan : fan.length = maxSelLen cs) :
    ∃ acc pm out,
      accumChildrenInfo p.transformChildrenInfo x cs [] = .ok acc ∧
      acc.length = maxSelLen cs ∧
      parentOverlayStep p ps x = .ok pm ∧
      pm.length = x.length ∧
      (∀ i, i < x.length → pm.getD i [] =
        p.overlayParentInfo (p.transformParentInfo (x.getD (ps.getD i 0) [])) (x.getD i [])) ∧
      propagationRound p mask ps cs fan x = .ok out ∧
      out.length = x.length ∧
      (∀ i, i < maxSelLen cs → out.getD i [] =
        p.overlayChildrenInfo ((acc.getD i []).map (fun q => q / fan.getD i 0))
          (pm.getD i [])) ∧
      (∀ i, maxSelLen cs ≤ i → out.getD i [] = pm.getD i []) := by
  obtain ⟨acc, pm, hacc, hacclen, hstep, hpmeq, hround⟩ :=
    @propagationRound_ok_char p mask ps cs fan x hpslen hpsv hcsv hch hL hfan
  rw [hdp, dropoutApply_zero] at hround
  have hpmlen : pm.length = x.length := by
    rw [hpmeq, List.length_zipWith, List.length_map]
    omega
  set dvd := List.zipWith (fun row f => row.map (fun q => q / f)) acc fan with hdvd
  have hdvdlen : dvd.length = maxSelLen cs := by
    rw [hdvd, List.length_zipWith]
    omega
  set first := List.zipWith p.overlayChildrenInfo dvd (pm.take (maxSelLen cs)) with hfirst
  have hfirstlen : first.length = maxSelLen cs := by
    rw [hfirst, List.length_zipWith, List.length_take]
    omega
  have houtlen : (first ++ pm.drop (maxSelLen cs)).length = x.length := by
    rw [List.length_append, hfirstlen, List.length_drop]
    omega
  refine ⟨acc, pm, first ++ pm.drop (maxSelLen cs), hacc, hacclen, hstep, hpmlen,
    ?_, hround, houtlen, ?_, ?_⟩
  · intro i hi
    have hips : i < ps.length := by omega
    have hpsi : ps[i] < x.length := hpsv _ (List.getElem_mem hips)
    have hipm : i < pm.length := by omega
    rw [List.getD_eq_getElem pm [] hipm, List.getD_eq_getElem ps 0 hips,
      List.getD_eq_getElem x [] hi]
    subst hpmeq
    rw [List.getElem_zipWith, List.getElem_map, List.getD_eq_getElem x [] hpsi]
  · intro i hi
    have hiout : i < (first ++ pm.drop (maxSelLen cs)).length := by omega
    have hifirst : i < first.length := by omega
    rw [List.getD_eq_getElem _ [] hiout, List.getElem_append_left hifirst]
    have hiacc : i < acc.length := by omega
    have hifan : i < fan.length := by omega
    have hipm : i < pm.length := by omega
    rw [List.getD_eq_getElem acc [] hiacc, List.getD_eq_getElem fan 0 hifan,
      List.getD_eq_getElem pm [] hipm]
    simp only [hfirst, hdvd, List.getElem_zipWith, List.getElem_take]
  · intro i hi
    rw [List.getD_eq_getElem?_getD, List.getElem?_append_right (by omega),
      ← List.getD_eq_getElem?_getD, hfirstlen, getD_drop_sub pm [] (maxSelLen cs) i hi]

/-! ### Claim theorems -/

/-- C10: for every propagator, input, selectors, fanout factor, masks and
stack depth, calling `forward` without supplying a `dataDebugHook`
argument (leaving the default `None`) fails immediately with the
not-callable error — the hook is invoked unconditionally on entry, before
dropout, normalization or any propagation round — so every guarantee of
`forward` presupposes that a callable hook is passed. -/
theorem claimC10_hook_required (p : HierarchyPropagator) (x : Mat) (ps : List ℕ)
    (cs : List (List ℕ)) (fan : List ℚ) (im : ℕ → ℕ → Bool)
    (om : ℕ → ℕ → ℕ → Bool) :
    p.forward x ps cs fan none im om = .error .typeNotCallable := rfl

/-- C9: with both dropout probabilities zero and batch normalization
disabled, the result of `forward` does not depend on the sampled dropout
masks (the only source of randomness in the model): two calls with
identical inputs and parameters return identical tensors. -/
theorem claimC9_deterministic (p : HierarchyPropagator) (x : Mat) (ps : List ℕ)
    (cs : List (List ℕ)) (fan : List ℚ) (hk : Mat → Unit)
    (ia ib : ℕ → ℕ → Bool) (oa ob : ℕ → ℕ → ℕ → Bool)
    (h1 : p.input_dropout_p = 0) (h2 : p.dropout_p = 0)
    (h3 : p.disable_batch_norm = true) :
    p.forward x ps cs fan (some hk) ia oa = p.forward x ps cs fan (some hk) ib ob := by
  unfold HierarchyPropagator.forward
  dsimp only
  rw [h1, dropoutApply_zero, dropoutApply_zero]
  have hcond : ¬ (p.disable_batch_norm = false ∧ 1 < x.length) := by
    rintro ⟨hf, -⟩
    rw [h3] at hf
    cases hf
  rw [if_neg hcond]
  exact propagateRounds_mask_irrel h2 ps cs fan oa ob p.node_info_propagator_stack_depth 0 0 x

/-- C9 witness: a concrete two-node batch evaluated under all-keep and
all-drop masks gives the same tensor. -/
theorem claimC9_witness :
    hpAdd.forward [[1], [2]] [0, 0] [[1]] [1, 1] (some hkUnit) maskKeep roundMaskKeep
      = hpAdd.forward [[1], [2]] [0, 0] [[1]] [1, 1] (some hkUnit) maskDrop roundMaskDrop :=
  claimC9_deterministic hpAdd [[1], [2]] [0, 0] [[1]] [1, 1] hkUnit
    maskKeep maskDrop roundMaskKeep roundMaskDrop rfl rfl rfl

/-- C8: a batch consisting of a single one-node tree (parent selector
pointing the node to itself, empty child-selector list) does not raise:
with dropout disabled, `forward` returns exactly the parent-step
self-loop merge iterated once per round, and the children-step merge is
never applied (any fanout factor is accepted, and batch normalization is
skipped because the batch has a single row even when it is enabled). -/
theorem claimC8_single_node (p : HierarchyPropagator) (v : Vec) (fan : List ℚ)
    (hk : Mat → Unit) (im : ℕ → ℕ → Bool) (om : ℕ → ℕ → ℕ → Bool)
    (h1 : p.input_dropout_p = 0) (h2 : p.dropout_p = 0) :
    p.forward [v] [0] [] fan (some hk) im om = .ok
      [(fun u => p.overlayParentInfo (p.transformParentInfo u) u)^[p.node_info_propagator_stack_depth] v] := by
  unfold HierarchyPropagator.forward
  dsimp only
  rw [h1, dropoutApply_zero]
  have hcond : ¬ (p.disable_batch_norm = false ∧ 1 < ([v] : Mat).length) := by
    rintro ⟨-, hlt⟩
    simp at hlt
  rw [if_neg hcond]
  exact propagateRounds_single h2 fan p.node_info_propagator_stack_depth 0 v

/-- C8 witness: two rounds on the one-node batch `[[3]]` with additive
cells yield `[[12]]`, the parent self-loop applied twice. -/
theorem claimC8_witness :
    HierarchyPropagator.forward { hpAdd with node_info_propagator_stack_depth := 2 }
      [[3]] [0] [] [] (some hkUnit) maskKeep roundMaskKeep = .ok [[12]] := by
  have h := claimC8_single_node { hpAdd with node_info_propagator_stack_depth := 2 }
    [3] [] hkUnit maskKeep roundMaskKeep rfl rfl
  refine h.trans (congrArg Except.ok ?_)
  norm_num [hpAdd, zipAdd, Function.iterate_succ_apply, Function.iterate_zero]

/-- C7: per call, input dropout is applied exactly once, to the raw
input before normalization and never again inside the loop — the result
depends on the input mask only through the dropped input — and the
batch-normalization pass runs exactly once and only when the (dropped)
input has more than one row and normalization is enabled: under that
condition the result depends on the normalization module only through
its value at the dropped input, and otherwise not at all. -/
theorem claimC7_dropout_norm_once (p : HierarchyPropagator) (ga gb : Mat → Mat)
    (x : Mat) (ps : List ℕ) (cs : List (List ℕ)) (fan : List ℚ) (hk : Mat → Unit)
    (ia ib : ℕ → ℕ → Bool) (om : ℕ → ℕ → ℕ → Bool)
    (h1 : dropoutApply p.input_dropout_p ia x = dropoutApply p.input_dropout_p ib x)
    (h2 : p.disable_batch_norm = false → 1 < (dropoutApply p.input_dropout_p ia x).length →
      ga (dropoutApply p.input_dropout_p ia x) = gb (dropoutApply p.input_dropout_p ia x)) :
    HierarchyPropagator.forward { p with batchNormPropagatedInfo := ga }
        x ps cs fan (some hk) ia om
      = HierarchyPropagator.forward { p with batchNormPropagatedInfo := gb }
        x ps cs fan (some hk) ib om := by
  unfold HierarchyPropagator.forward
  dsimp only
  rw [← h1]
  by_cases hcond : p.disable_batch_norm = false ∧ 1 < (dropoutApply p.input_dropout_p ia x).length
  · rw [if_pos hcond, if_pos hcond, h2 hcond.1 hcond.2,
      propagateRounds_batchNorm_irrel p ga, propagateRounds_batchNorm_irrel p gb]
  · rw [if_neg hcond, if_neg hcond,
      propagateRounds_batchNorm_irrel p ga, propagateRounds_batchNorm_irrel p gb]

/-- C7 witness: with normalization disabled, two entirely different
normalization modules and two different input masks (under disabled
input dropout) give the same result. -/
theorem claimC7_witness :
    HierarchyPropagator.forward { hpAdd with batchNormPropagatedInfo := fun m => m }
      [[1], [2]] [0, 0] [[1]] [1, 1] (some hkUnit) maskKeep roundMaskKeep
    = HierarchyPropagator.forward { hpAdd with batchNormPropagatedInfo := bnShift }
      [[1], [2]] [0, 0] [[1]] [1, 1] (some hkUnit) maskDrop roundMaskKeep :=
  claimC7_dropout_norm_once hpAdd (fun m => m) bnShift [[1], [2]] [0, 0] [[1]] [1, 1]
    hkUnit maskKeep maskDrop roundMaskKeep rfl (fun hf => nomatch hf)

/-- C1 counterexample: a valid input in the claim's sense — three nodes
(a root-child-grandchild chain), width-1 rows, selectors all in range,
and a fanout-factor vector with one entry per node (`[1, 1, 0]`, the
per-node child counts in decreasing NDFO order) — on which `forward`
does not return a tensor at all: the children-info accumulator has two
rows while the fanout factor has three, and the division at line 157
raises a broadcasting error. -/
theorem claimC1_counterexample :
    hpAdd.forward [[1], [2], [3]] [0, 0, 1] [[1, 2]] [1, 1, 0]
      (some hkUnit) maskKeep roundMaskKeep = .error .broadcastMismatch := by
  norm_num [HierarchyPropagator.forward, propagateRounds, propagationRound, accumChildrenInfo,
    gatherRows, gruCellApply, divByFanout, dropoutApply, padRows, matAdd, zipAdd, hpAdd,
    maxSelLen]

/-- C1 amended: whenever `forward` returns a tensor, that tensor has
exactly the input's shape (same row count, all rows at the feature
width), for every stack depth and every input — but `forward` may raise
instead of returning on inputs the claim calls valid.  The merge cells
and the normalization module are width- and shape-preserving, as
`nn.Linear(W, W)`, `nn.GRUCell(W, W)` and `nn.BatchNorm1d(W)` are. -/
theorem claimC1_shape (p : HierarchyPropagator) (x y : Mat) (ps : List ℕ)
    (cs : List (List ℕ)) (fan : List ℚ) (hk : Mat → Unit) (im : ℕ → ℕ → Bool)
    (om : ℕ → ℕ → ℕ → Bool)
    (hbn : ∀ m : Mat, (∀ v ∈ m, v.length = p.propagated_info_len) →
      (p.batchNormPropagatedInfo m).length = m.length
        ∧ ∀ v ∈ p.batchNormPropagatedInfo m, v.length = p.propagated_info_len)
    (htp : ∀ v : Vec, v.length = p.propagated_info_len →
      (p.transformParentInfo v).length = p.propagated_info_len)
    (htc : ∀ v : Vec, v.length = p.propagated_info_len →
      (p.transformChildrenInfo v).length = p.propagated_info_len)
    (hop : ∀ a b : Vec, a.length = p.propagated_info_len → b.length = p.propagated_info_len →
      (p.overlayParentInfo a b).length = p.propagated_info_len)
    (hoc : ∀ a b : Vec, a.length = p.propagated_info_len → b.length = p.propagated_info_len →
      (p.overlayChildrenInfo a b).length = p.propagated_info_len)
    (hx : ∀ v ∈ x, v.length = p.propagated_info_len)
    (h : p.forward x ps cs fan (some hk) im om = .ok y) :
    y.length = x.length ∧ ∀ v ∈ y, v.length = p.propagated_info_len := by
  unfold HierarchyPropagator.forward at h
  dsimp only at h
  have hx1len : (dropoutApply p.input_dropout_p im x).length = x.length :=
    dropoutApply_length _ _ _
  have hx1w : ∀ v ∈ dropoutApply p.input_dropout_p im x, v.length = p.propagated_info_len :=
    dropoutApply_widths hx
  by_cases hcond : p.disable_batch_norm = false
      ∧ 1 < (dropoutApply p.input_dropout_p im x).length
  · rw [if_pos hcond] at h
    obtain ⟨hbl, hbw⟩ := hbn (dropoutApply p.input_dropout_p im x) hx1w
    obtain ⟨h1, h2⟩ := propagateRounds_ok_shape htp htc hop hoc _ 0 _ y h hbw
    exact ⟨by omega, h2⟩
  · rw [if_neg hcond] at h
    obtain ⟨h1, h2⟩ := propagateRounds_ok_shape htp htc hop hoc _ 0 _ y h hx1w
    exact ⟨by omega, h2⟩

/-- C1 witness: a one-node run that does return, with the returned
tensor of the input's exact shape. -/
theorem claimC1_witness :
    ([[(10 : ℚ)]] : Mat).length = ([[(5 : ℚ)]] : Mat).length
    ∧ ∀ v ∈ ([[(10 : ℚ)]] : Mat), v.length = hpAdd.propagated_info_len := by
  refine claimC1_shape hpAdd [[5]] [[10]] [0] [] [] hkUnit maskKeep roundMaskKeep
    (fun m hm => ⟨rfl, hm⟩) (fun v hv => hv) (fun v hv => hv)
    ?_ ?_ ?_ ?_
  · intro a b ha hb
    simp [zipAdd, List.length_zipWith, ha, hb, hpAdd]
  · intro a b ha hb
    simp [zipAdd, List.length_zipWith, ha, hb, hpAdd]
  · intro v hv
    simp only [List.mem_singleton] at hv
    subst hv
    rfl
  · norm_num [HierarchyPropagator.forward, propagateRounds, propagationRound, accumChildrenInfo,
      gatherRows, gruCellApply, divByFanout, dropoutApply, padRows, matAdd, zipAdd, hpAdd,
      maxSelLen]

/-- C2 counterexample: a child-selector list with lengths `[2, 1]` —
non-increasing in rank as the claim's data model requires, the rank-0
array longest and seeding the accumulator — on which the per-iteration
length check (`assert` line 145) fails at the second iteration: the
check requires each later array to be at least as long as the
accumulator, the opposite direction of the claim. -/
theorem claimC2_counterexample :
    hpAdd.forward [[1], [2], [3]] [0, 0, 0] [[1, 2], [2]] [2, 1, 0]
      (some hkUnit) maskKeep roundMaskKeep = .error .assertFailed := by
  norm_num [HierarchyPropagator.forward, propagateRounds, propagationRound, accumChildrenInfo,
    gatherRows, gruCellApply, divByFanout, dropoutApply, padRows, matAdd, zipAdd, hpAdd,
    maxSelLen]

/-- C2 amended: the accumulation accepts exactly the opposite ordering:
when array lengths are non-decreasing in processing order (seed array
shortest), every per-iteration check passes, the accumulator never
shrinks — after each prefix of the loop its length is the running
maximum, which is monotone — and it ends at the longest array's
length. -/
theorem claimC2_accumulation (p : HierarchyPropagator) (x : Mat) (cs : List (List ℕ))
    (hv : ∀ sel ∈ cs, ∀ i ∈ sel, i < x.length)
    (hch : List.Chain' (· ≤ ·) (cs.map List.length)) :
    (∃ r, accumChildrenInfo p.transformChildrenInfo x cs [] = .ok r
       ∧ r.length = maxSelLen cs)
    ∧ (∀ k, ∃ r, accumChildrenInfo p.transformChildrenInfo x (cs.take k) [] = .ok r
       ∧ r.length = maxSelLen (cs.take k))
    ∧ (∀ j k, j ≤ k → maxSelLen (cs.take j) ≤ maxSelLen (cs.take k)) := by
  have hmain : ∀ (ds : List (List ℕ)), (∀ sel ∈ ds, ∀ i ∈ sel, i < x.length) →
      List.Chain' (· ≤ ·) (ds.map List.length) →
      ∃ r, accumChildrenInfo p.transformChildrenInfo x ds [] = .ok r
        ∧ r.length = maxSelLen ds := by
    intro ds hdv hdch
    have hch0 : List.Chain' (· ≤ ·) ((([] : Mat)).length :: ds.map List.length) := by
      rw [List.chain'_cons']
      exact ⟨fun y _ => Nat.zero_le y, hdch⟩
    obtain ⟨r, hr, hrlen⟩ := accumChildrenInfo_ok p.transformChildrenInfo x ds [] hdv hch0
    refine ⟨r, hr, ?_⟩
    rw [hrlen]
    simp
  refine ⟨hmain cs hv hch, fun k => ?_, fun j k hjk => maxSelLen_take_mono cs hjk⟩
  refine hmain (cs.take k) (fun sel hs => hv sel (List.mem_of_mem_take hs)) ?_
  rw [List.map_take]
  exact hch.take k

/-- C2 witness: on the selector list with lengths `[1, 2]` the
accumulation succeeds with final length 2 and monotone prefix
lengths. -/
theorem claimC2_witness :
    (∃ r, accumChildrenInfo hpAdd.transformChildrenInfo [[1], [2], [3]] [[1], [1, 2]] []
        = .ok r ∧ r.length = maxSelLen [[1], [1, 2]])
    ∧ (∀ k, ∃ r, accumChildrenInfo hpAdd.transformChildrenInfo [[1], [2], [3]]
        (([[1], [1, 2]] : List (List ℕ)).take k) [] = .ok r
       ∧ r.length = maxSelLen (([[1], [1, 2]] : List (List ℕ)).take k))
    ∧ (∀ j k, j ≤ k → maxSelLen (([[1], [1, 2]] : List (List ℕ)).take j)
        ≤ maxSelLen (([[1], [1, 2]] : List (List ℕ)).take k)) :=
  claimC2_accumulation hpAdd [[1], [2], [3]] [[1], [1, 2]] (by decide)
    (by simp [List.chain'_cons, List.chain'_singleton])

/-- C3 counterexample: child-selector lists `[[1], [0, 1]]` (lengths
1 then 2, the only ordering the in-loop check accepts).  The claim's
boundary — the rank-0 (first, seed) selector length, here 1 — would
leave row 1 carrying its parent-merged value `[3]` through the children
sub-step; `forward` instead children-merges rows up to the accumulated
length 2, and row 1 comes out `[5] ≠ [3]`. -/
theorem claimC3_counterexample :
    hpAdd.forward [[1], [2]] [0, 0] [[1], [0, 1]] [2, 1]
      (some hkUnit) maskKeep roundMaskKeep = .ok [[7/2], [5]]
    ∧ parentOverlayStep hpAdd [0, 0] [[1], [2]] = .ok [[2], [3]]
    ∧ ([[7/2], [5]] : Mat).getD 1 [] ≠ ([[2], [3]] : Mat).getD 1 [] := by
  refine ⟨?_, ?_, ?_⟩
  · norm_num [HierarchyPropagator.forward, propagateRounds, propagationRound, accumChildrenInfo,
      gatherRows, gruCellApply, divByFanout, dropoutApply, padRows, matAdd, zipAdd, hpAdd,
      maxSelLen]
  · norm_num [parentOverlayStep, gatherRows, gruCellApply, zipAdd, hpAdd]
  · norm_num [List.getD]

/-- C3 amended: in every round on well-formed input, the parent GRU cell
applies to every row (each row's new value is the cell of its parent's
transformed row and its own row), the children GRU cell applies exactly
to the prefix of rows up to the accumulated children-info length — the
longest (last-processed) child-selector array's length, not the first
array's — and every row beyond that boundary carries its parent-merged
value through the children sub-step unchanged, prefix and suffix
re-concatenated in node order. -/
theorem claimC3_round_split (p : HierarchyPropagator) (mask : ℕ → ℕ → Bool) (ps : List ℕ)
    (cs : List (List ℕ)) (fan : List ℚ) (x : Mat)
    (hdp : p.dropout_p = 0) (hpslen : ps.length = x.length)
    (hpsv : ∀ i ∈ ps, i < x.length) (hcsv : ∀ sel ∈ cs, ∀ i ∈ sel, i < x.length)
    (hch : List.Chain' (· ≤ ·) (cs.map List.length))
    (hL : maxSelLen cs ≤ x.length) (hfan : fan.length = maxSelLen cs) :
    ∃ pm out, parentOverlayStep p ps x = .ok pm
      ∧ (∀ i, i < x.length → pm.getD i [] =
          p.overlayParentInfo (p.transformParentInfo (x.getD (ps.getD i 0) [])) (x.getD i []))
      ∧ propagationRound p mask ps cs fan x = .ok out
      ∧ out.length = x.length
      ∧ (∀ i, i < maxSelLen cs → ∃ c, out.getD i [] = p.overlayChildrenInfo c (pm.getD i []))
      ∧ (∀ i, maxSelLen cs ≤ i → out.getD i [] = pm.getD i []) := by
  obtain ⟨acc, pm, out, hacc, hacclen, hstep, hpmlen, hpmpt, hround, houtlen, hpre, hsuf⟩ :=
    propagationRound_pointwise hdp hpslen hpsv hcsv hch hL hfan
  exact ⟨pm, out, hstep, hpmpt, hround, houtlen, fun i hi => ⟨_, hpre i hi⟩, hsuf⟩

/-- C3 witness: the characterization applied to the concrete two-node
round of the counterexample input. -/
theorem claimC3_witness :
    ∃ pm out, parentOverlayStep hpAdd [0, 0] [[1], [2]] = .ok pm
      ∧ (∀ i, i < ([[1], [2]] : Mat).length → pm.getD i [] =
          hpAdd.overlayParentInfo
            (hpAdd.transformParentInfo (([[1], [2]] : Mat).getD (([0, 0] : List ℕ).getD i 0) []))
            (([[1], [2]] : Mat).getD i []))
      ∧ propagationRound hpAdd maskKeep [0, 0] [[1], [0, 1]] [2, 1] [[1], [2]] = .ok out
      ∧ out.length = ([[1], [2]] : Mat).length
      ∧ (∀ i, i < maxSelLen [[1], [0, 1]] →
          ∃ c, out.getD i [] = hpAdd.overlayChildrenInfo c (pm.getD i []))
      ∧ (∀ i, maxSelLen [[1], [0, 1]] ≤ i → out.getD i [] = pm.getD i []) :=
  claimC3_round_split hpAdd maskKeep [0, 0] [[1], [0, 1]] [2, 1] [[1], [2]]
    rfl rfl (by decide) (by decide)
    (by simp [List.chain'_cons, List.chain'_singleton]) (by decide) (by decide)

/-- C4 counterexample: stack depth 0 and both dropouts disabled, but
batch normalization enabled on a two-row input: `forward` returns the
normalized tensor, not the input. -/
theorem claimC4_counterexample :
    HierarchyPropagator.forward
      { hpAdd with
          disable_batch_norm := false
          batchNormPropagatedInfo := bnShift
          node_info_propagator_stack_depth := 0 }
      [[0], [1]] [0, 0] [] [] (some hkUnit) maskKeep roundMaskKeep = .ok [[1], [2]]
    ∧ ([[1], [2]] : Mat) ≠ [[0], [1]] := by
  constructor
  · norm_num [HierarchyPropagator.forward, propagateRounds, dropoutApply, bnShift, hpAdd]
  · simp

/-- C4 amended: with stack depth 0 and input dropout disabled, `forward`
returns the input unchanged provided batch normalization is disabled or
the input has at most one row; with normalization enabled on a multi-row
input the normalization pass still runs. -/
theorem claimC4_depth_zero (p : HierarchyPropagator) (x : Mat) (ps : List ℕ)
    (cs : List (List ℕ)) (fan : List ℚ) (hk : Mat → Unit) (im : ℕ → ℕ → Bool)
    (om : ℕ → ℕ → ℕ → Bool)
    (h0 : p.node_info_propagator_stack_depth = 0)
    (h1 : p.input_dropout_p = 0)
    (h2 : p.disable_batch_norm = true ∨ x.length ≤ 1) :
    p.forward x ps cs fan (some hk) im om = .ok x := by
  unfold HierarchyPropagator.forward
  dsimp only
  rw [h1, dropoutApply_zero]
  have hcond : ¬ (p.disable_batch_norm = false ∧ 1 < x.length) := by
    rintro ⟨hf, hlt⟩
    rcases h2 with h | h
    · rw [h] at hf
      cases hf
    · omega
  rw [if_neg hcond, h0]
  rfl

/-- C4 witness: a depth-0 call returns its input unchanged. -/
theorem claimC4_witness :
    HierarchyPropagator.forward { hpAdd with node_info_propagator_stack_depth := 0 }
      [[5]] [0] [] [] (some hkUnit) maskKeep roundMaskKeep = .ok [[5]] :=
  claimC4_depth_zero { hpAdd with node_info_propagator_stack_depth := 0 }
    [[5]] [0] [] [] hkUnit maskKeep roundMaskKeep rfl rfl (Or.inl rfl)

/-- C5 counterexample: four nodes (a root with two children, one child
with a grandchild), selectors valid and lengths non-decreasing, and the
fanout-factor vector exactly as the claim's data-model precondition has
it — one entry per node, child counts in decreasing NDFO order
(`[2, 1, 0, 0]`).  The accumulated children info has two rows, the
divisor four: the division is not well-defined and `forward` raises a
broadcasting error instead of dividing. -/
theorem claimC5_counterexample :
    hpAdd.forward [[1], [2], [3], [4]] [0, 0, 0, 1] [[2], [1, 3]] [2, 1, 0, 0]
      (some hkUnit) maskKeep roundMaskKeep = .error .broadcastMismatch := by
  norm_num [HierarchyPropagator.forward, propagateRounds, propagationRound, accumChildrenInfo,
    gatherRows, gruCellApply, divByFanout, dropoutApply, padRows, matAdd, zipAdd, hpAdd,
    maxSelLen]

/-- C5 amended: the division is performed, row-wise and well-defined,
for exactly the rows that received a child contribution, when the fanout
factor has one nonzero entry per such row (its length equal to the
accumulated children-info length, not the node count): row `i < L` of
the round's output merges `acc[i] / fan[i]` into the parent-merged row,
and rows from `L` on are never divided nor children-merged. -/
theorem claimC5_normalization (p : HierarchyPropagator) (mask : ℕ → ℕ → Bool) (ps : List ℕ)
    (cs : List (List ℕ)) (fan : List ℚ) (x : Mat)
    (hdp : p.dropout_p = 0) (hpslen : ps.length = x.length)
    (hpsv : ∀ i ∈ ps, i < x.length) (hcsv : ∀ sel ∈ cs, ∀ i ∈ sel, i < x.length)
    (hch : List.Chain' (· ≤ ·) (cs.map List.length))
    (hL : maxSelLen cs ≤ x.length) (hfan : fan.length = maxSelLen cs)
    (hpos : ∀ q ∈ fan, q ≠ 0) :
    ∃ acc pm out, accumChildrenInfo p.transformChildrenInfo x cs [] = .ok acc
      ∧ acc.length = maxSelLen cs
      ∧ parentOverlayStep p ps x = .ok pm
      ∧ propagationRound p mask ps cs fan x = .ok out
      ∧ out.length = x.length
      ∧ (∀ i, i < maxSelLen cs → fan.getD i 0 ≠ 0
          ∧ out.getD i [] = p.overlayChildrenInfo
              ((acc.getD i []).map (fun q => q / fan.getD i 0)) (pm.getD i []))
      ∧ (∀ i, maxSelLen cs ≤ i → out.getD i [] = pm.getD i []) := by
  obtain ⟨acc, pm, out, hacc, hacclen, hstep, hpmlen, hpmpt, hround, houtlen, hpre, hsuf⟩ :=
    propagationRound_pointwise hdp hpslen hpsv hcsv hch hL hfan
  refine ⟨acc, pm, out, hacc, hacclen, hstep, hround, houtlen, fun i hi => ⟨?_, hpre i hi⟩, hsuf⟩
  have hif : i < fan.length := by omega
  rw [List.getD_eq_getElem fan 0 hif]
  exact hpos _ (List.getElem_mem hif)

/-- C5 witness: the division characterization on a concrete two-node
round with fanout factor `[2, 1]` of length equal to the accumulated
children length. -/
theorem claimC5_witness :
    ∃ acc pm out,
      accumChildrenInfo hpAdd.transformChildrenInfo [[1], [2]] [[1], [0, 1]] [] = .ok acc
      ∧ acc.length = maxSelLen [[1], [0, 1]]
      ∧ parentOverlayStep hpAdd [0, 0] [[1], [2]] = .ok pm
      ∧ propagationRound hpAdd maskKeep [0, 0] [[1], [0, 1]] [2, 1] [[1], [2]] = .ok out
      ∧ out.length = ([[1], [2]] : Mat).length
      ∧ (∀ i, i < maxSelLen [[1], [0, 1]] → ([2, 1] : List ℚ).getD i 0 ≠ 0
          ∧ out.getD i [] = hpAdd.overlayChildrenInfo
              ((acc.getD i []).map (fun q => q / ([2, 1] : List ℚ).getD i 0)) (pm.getD i []))
      ∧ (∀ i, maxSelLen [[1], [0, 1]] ≤ i → out.getD i [] = pm.getD i []) :=
  claimC5_normalization hpAdd maskKeep [0, 0] [[1], [0, 1]] [2, 1] [[1], [2]]
    rfl rfl (by decide) (by decide)
    (by simp [List.chain'_cons, List.chain'_singleton]) (by decide) (by decide)
    (by norm_num)

/-- C6 counterexample: node tensor with two rows, accumulated
children-info with one row — the lengths disagree after padding, so the
claim demands a `ShapeError` abort — yet `forward` silently succeeds:
torch broadcasting stretches the single accumulated row across both
nodes and the children merge is applied to every row. -/
theorem claimC6_counterexample :
    hpAdd.forward [[1], [2]] [0, 0] [[1]] [1, 1]
      (some hkUnit) maskKeep roundMaskKeep = .ok [[4], [5]] := by
  norm_num [HierarchyPropagator.forward, propagateRounds, propagationRound, accumChildrenInfo,
    gatherRows, gruCellApply, divByFanout, dropoutApply, padRows, matAdd, zipAdd, hpAdd,
    maxSelLen]

/-- C6 amended: with at least one round, an out-of-range entry in the
parent selector or in any child-selector array always aborts the call
with an error and no partial result, whether batch normalization is
enabled or disabled (the normalization module preserves the row count,
as `nn.BatchNorm1d` does); the length-disagreement condition, by
contrast, does not always abort (see the counterexample), and the
exceptions raised are the index/assert/broadcast errors of the
underlying operations, not a dedicated `ShapeError` class. -/
theorem claimC6_selector_abort (p : HierarchyPropagator) (x : Mat) (ps : List ℕ)
    (cs : List (List ℕ)) (fan : List ℚ) (hk : Mat → Unit) (im : ℕ → ℕ → Bool)
    (om : ℕ → ℕ → ℕ → Bool)
    (hdepth : 1 ≤ p.node_info_propagator_stack_depth)
    (hbn : ∀ m : Mat, (p.batchNormPropagatedInfo m).length = m.length)
    (hbad : (∃ i ∈ ps, x.length ≤ i) ∨ ∃ sel ∈ cs, ∃ i ∈ sel, x.length ≤ i) :
    ∃ e, p.forward x ps cs fan (some hk) im om = .error e :=
  forward_err_of_invalid hdepth hbn hbad

/-- C6 witness: a parent selector pointing at rank 5 of a one-row tensor
aborts the call, here with batch normalization enabled and a row-count
preserving normalization module. -/
theorem claimC6_witness :
    ∃ e, HierarchyPropagator.forward { hpAdd with disable_batch_norm := false }
      [[1]] [5] [] [] (some hkUnit) maskKeep roundMaskKeep = .error e :=
  claimC6_selector_abort { hpAdd with disable_batch_norm := false }
    [[1]] [5] [] [] hkUnit maskKeep roundMaskKeep
    (by decide) (fun m => rfl) (Or.inl (by decide))
